import Mathlib

/-!
Verification development for the task-dependency planner and task executor of
the `claude_code_mcp` package (`task_dependencies.py`, `task_executor.py`).

The Python code is shallowly embedded: dictionaries become structures, the
networkx `DiGraph` becomes an explicit record of node/edge lists with the same
observable behaviour (`add_edge` inserts missing endpoints, node attributes are
a last-write-wins association list), and the `while` loop of
`create_execution_plan` becomes a fuel-indexed recursion whose fuel (the number
of graph nodes) is provably sufficient.  Process execution and the cooperative
scheduler are modelled by an environment oracle mapping a command string to an
exit code and captured output streams; `asyncio.gather` over a stage is
modelled by the canonical cooperative interleaving (all RUNNING updates in
scheduling order, then each wrapper's terminal update in the same order),
which preserves the per-subtask order of status updates.
-/

namespace Spec2Proof

/-- A task descriptor as consumed by `TaskDependencyManager.create_execution_plan`:
the dictionary `{"id": ..., "dependencies": [...], "executionMode": ...}`. -/
structure PTask where
  id : String
  dependencies : List String
  executionMode : String
deriving DecidableEq, Repr

/-- The networkx `DiGraph` as used by `TaskDependencyManager`: an insertion-ordered
duplicate-free node list, a last-write-wins association list for the per-node
`execution_mode` attribute, and an insertion-ordered duplicate-free edge list. -/
structure DGraph where
  nodes : List String
  modes : List (String × String)
  edges : List (String × String)
deriving DecidableEq, Repr

/-- The freshly cleared graph (`self.dependency_graph.clear()`). -/
def emptyGraph : DGraph := ⟨[], [], []⟩

/-- networkx node insertion without attributes (performed implicitly by `add_edge`). -/
def ensureNode (g : DGraph) (n : String) : DGraph :=
  { g with nodes := if n ∈ g.nodes then g.nodes else g.nodes ++ [n] }

/-- networkx `add_node(task_id, execution_mode=execution_mode)`: inserts the node if
absent and overwrites its `execution_mode` attribute (lookup takes the first match,
so prepending realises last-write-wins). -/
def addNode (g : DGraph) (n mode : String) : DGraph :=
  let g1 := ensureNode g n
  { g1 with modes := (n, mode) :: g1.modes }

/-- networkx `add_edge(u, v)`: inserts both endpoints if absent, then the edge if absent. -/
def addEdge (g : DGraph) (u v : String) : DGraph :=
  let g1 := ensureNode (ensureNode g u) v
  { g1 with edges := if (u, v) ∈ g1.edges then g1.edges else g1.edges ++ [(u, v)] }

/-- `TaskDependencyManager.add_task`: add the task node with its mode attribute,
then an edge `dep → task_id` for every declared dependency. -/
def add_task (g : DGraph) (taskId : String) (dependencies : List String)
    (executionMode : String) : DGraph :=
  dependencies.foldl (fun g d => addEdge g d taskId) (addNode g taskId executionMode)

/-- The graph built by `create_execution_plan` lines 108-117: clear, then `add_task`
for every descriptor in order. -/
def buildGraph (tasks : List PTask) : DGraph :=
  tasks.foldl (fun g t => add_task g t.id t.dependencies t.executionMode) emptyGraph

/-- networkx `graph.predecessors(n)`: sources of the in-edges of `n`, in edge
insertion order. -/
def predecessors (g : DGraph) (n : String) : List String :=
  g.edges.filterMap (fun e => if e.2 = n then some e.1 else none)

/-- `self.dependency_graph.nodes[task_id].get("execution_mode", "sequential")`. -/
def getMode (g : DGraph) (n : String) : String :=
  (g.modes.lookup n).getD ("sequential")

/-- The edge relation of the graph, as a proposition. -/
def edgeRel (g : DGraph) (u v : String) : Prop := (u, v) ∈ g.edges

/-- The dependency relation declared by a task list: `depRel tasks a b` holds when
some descriptor with id `b` lists `a` among its dependencies (`a` must run first). -/
def depRel (tasks : List PTask) (a b : String) : Prop :=
  ∃ t ∈ tasks, t.id = b ∧ a ∈ t.dependencies

/-- One round's ready subset (lines 130-134): members of `rem` none of whose
predecessors are still in `rem`, in the iteration order of `rem`. -/
def readyFilter (g : DGraph) (rem : List String) : List String :=
  rem.filter (fun t => (predecessors g t).all (fun p => !(rem.contains p)))

/-- Kahn-style peeling of ready nodes.  `peel g f rem` repeatedly removes the ready
subset from `rem` (at most `f` rounds) and returns the stuck remainder; the result
is nonempty exactly when the edges induced on `rem` contain a directed cycle.
This models the observable behaviour of `nx.find_cycle` (which succeeds iff a
directed cycle exists); the equivalence with the existence of a `Relation.TransGen`
cycle is proved below (`hasCycleB_eq_true_iff`). -/
def peel (g : DGraph) : Nat → List String → List String
  | 0, rem => rem
  | f + 1, rem =>
    let ready := readyFilter g rem
    if ready = [] then rem else peel g f (rem.filter (fun x => !(ready.contains x)))

/-- Whether `nx.find_cycle(self.dependency_graph)` finds a directed cycle. -/
def hasCycleB (g : DGraph) : Bool :=
  !(peel g g.nodes.length g.nodes).isEmpty

/-- The error message appended at line 82 when a cycle is found. -/
def cycleMsg : String := "Dependency cycle detected in tasks"

/-- Lines 87-92: for every node, for every predecessor, report the predecessor if it
is not a node of the graph.  (networkx guarantees every edge endpoint is a node, so
this loop can never append anything; that fact is proved below, not assumed.) -/
def missing_dependency_errors (g : DGraph) : List String :=
  g.nodes.flatMap (fun node =>
    (predecessors g node).filterMap (fun p =>
      if p ∈ g.nodes then none
      else some (("Task ") ++ node ++ (" depends on missing task ") ++ p)))

/-- `TaskDependencyManager.validate_dependencies`: the cycle error (if any) followed
by the missing-dependency errors. -/
def validate_dependencies (g : DGraph) : List String :=
  (if hasCycleB g then [cycleMsg] else []) ++ missing_dependency_errors g

/-- Lines 140-160: partition the round's ready subset by execution mode; sequential
tasks become singleton stages in discovery order, then the parallel tasks (if any)
are appended as one combined stage. -/
def roundStages (g : DGraph) (ready : List String) : List (List String) :=
  (ready.filter (fun t => !(getMode g t == ("parallel")))).map (fun t => [t]) ++
    (if ready.filter (fun t => getMode g t == ("parallel")) = [] then []
     else [ready.filter (fun t => getMode g t == ("parallel"))])

/-- The fatal planning error raised at line 138. -/
def planningErrMsg : String :=
  "Could not find next tasks to execute. This may indicate a cycle in the dependencies."

/-- The `while remaining_tasks:` loop of `create_execution_plan` (lines 125-161),
with fuel.  Each successful round removes at least one task, so fuel equal to the
number of nodes is sufficient; the fuel-exhaustion branch is proved unreachable
for the actual call below. -/
def planLoop (g : DGraph) : Nat → List String → Except String (List (List String))
  | 0, rem => if rem = [] then .ok [] else .error ("planner fuel exhausted")
  | f + 1, rem =>
    if rem = [] then .ok []
    else if readyFilter g rem = [] then .error planningErrMsg
    else
      (planLoop g f (rem.filter (fun x => !((readyFilter g rem).contains x)))).map
        (fun rest => roundStages g (readyFilter g rem) ++ rest)

/-- `TaskDependencyManager.create_execution_plan`: rebuild the graph, validate
(raising `TaskDependencyError` with the joined error list on failure), then run the
planning loop.  Exceptions are modelled by `Except.error`. -/
def create_execution_plan (tasks : List PTask) : Except String (List (List String)) :=
  let g := buildGraph tasks
  let errors := validate_dependencies g
  if errors ≠ [] then .error (String.intercalate ("\n") errors)
  else planLoop g g.nodes.length g.nodes

/-! ### Task executor (`task_executor.py`)

The executor is embedded as a deterministic state transformer.  The state
carries the in-memory `TaskExecutionRecord`, the list of persisted snapshots
(`_save_task_status` calls) and the flat trace of `_update_subtask_status`
events.  Spawned processes are an oracle `env : String → ProcResult`; the
cooperative scheduler of a parallel stage is modelled by its canonical
interleaving (RUNNING updates in scheduling order, then each wrapper's terminal
update in the same order), which preserves each subtask's own update order.
The model assumes networkx and the dependency manager are importable
(`HAVE_NETWORKX`), as in the repository's environment. -/

/-- `TaskStatus` (task_executor.py lines 59-65). -/
inductive TStatus
  | pending
  | running
  | completed
  | failed
  | cancelled
deriving DecidableEq, Repr

/-- A raw subtask dictionary as supplied to `execute_task`: every field the
executor reads may be absent. -/
structure SubtaskIn where
  id : Option String
  command : Option String
  dependencies : Option (List String)
  executionMode : Option String
deriving DecidableEq, Repr

/-- A raw task dictionary: `id`, `subtasks`, and `executionMode`
(defaulted to sequential by the caller-side `.get`). -/
structure TaskIn where
  id : String
  subtasks : List SubtaskIn
  executionMode : String
deriving DecidableEq, Repr

/-- A subtask after the normalisation loop of `execute_task` (lines 137-144):
`id` and `dependencies` and `executionMode` are filled in; `command` may still
be absent (the runner checks it). -/
structure NSub where
  id : String
  command : Option String
  dependencies : List String
  executionMode : String
deriving DecidableEq, Repr

/-- Lines 137-144: default the id to `subtask-i`, the dependencies to `[]` and
the execution mode to the task's own mode. -/
def normalizeSubtask (taskMode : String) (i : Nat) (st : SubtaskIn) : NSub :=
  { id := st.id.getD (("subtask-") ++ toString i)
    command := st.command
    dependencies := st.dependencies.getD []
    executionMode := st.executionMode.getD taskMode }

/-- Normalise all subtasks with their positional indices. -/
def normalizeSubtasks (taskMode : String) (sts : List SubtaskIn) : List NSub :=
  sts.enum.map (fun p => normalizeSubtask taskMode p.1 p.2)

/-- View a normalised subtask as a planner task descriptor (the planner reads
exactly the `id`, `dependencies` and `executionMode` keys of the same dicts). -/
def nsubToPTask (s : NSub) : PTask :=
  ⟨s.id, s.dependencies, s.executionMode⟩

/-- Outcome of spawning a shell command: exit code plus captured stdout/stderr. -/
structure ProcResult where
  exitCode : Int
  stdout : String
  stderr : String
deriving DecidableEq, Repr

/-- `TaskExecutor._execute_subtask` (lines 322-351): a missing or empty command
fails immediately (`if not command`), a non-zero exit code fails with the captured
stderr, otherwise the captured stdout is returned together with the exit code. -/
def execute_subtask (env : String → ProcResult) (st : NSub) : Except String (String × Int) :=
  match st.command with
  | none => .error ("Subtask command is required")
  | some c =>
    if c = "" then .error ("Subtask command is required")
    else
      if (env c).exitCode ≠ 0 then
        .error (("Command failed with exit code ") ++ toString (env c).exitCode ++ (": ")
          ++ (env c).stderr)
      else .ok ((env c).stdout, (env c).exitCode)

/-- The terminal status `_execute_subtask`'s caller records for a subtask. -/
def termStatus (env : String → ProcResult) (sub : NSub) : TStatus :=
  match execute_subtask env sub with
  | .ok _ => .completed
  | .error _ => .failed

/-- One entry of the record's `subtasks` list. -/
structure SubEntry where
  id : String
  status : TStatus
  output : Option String
  error : Option String
deriving DecidableEq, Repr

/-- The `task_status` dictionary (`TaskExecutionRecord`).  Wall-clock times are
opaque; `endTime` is `none` until the `finally` block runs. -/
structure TaskRecord where
  taskId : String
  status : TStatus
  subtasks : List SubEntry
  executionMode : String
  endTime : Option Unit
deriving DecidableEq, Repr

/-- Executor state: the live record, every persisted snapshot in order, and the
trace of `_update_subtask_status` events `(subtask_id, new status)`. -/
structure ExecSt where
  record : TaskRecord
  saves : List TaskRecord
  trace : List (String × TStatus)
deriving DecidableEq, Repr

/-- The entry-update loop of `_update_subtask_status` (lines 376-383): update the
FIRST entry whose id matches (the loop `break`s), leaving `output`/`error`
untouched when the corresponding argument is `None`. -/
def updateEntries (sid : String) (s : TStatus) (out err : Option String) :
    List SubEntry → List SubEntry
  | [] => []
  | e :: rest =>
    if e.id = sid then
      { e with status := s
               output := match out with | some v => some v | none => e.output
               error := match err with | some v => some v | none => e.error } :: rest
    else e :: updateEntries sid s out err rest

/-- `TaskExecutor._update_subtask_status` (lines 353-386): mutate the record and
persist a snapshot.  The event is also appended to the trace. -/
def update_subtask_status (st : ExecSt) (sid : String) (s : TStatus)
    (out err : Option String) : ExecSt :=
  { record := { st.record with subtasks := updateEntries sid s out err st.record.subtasks }
    saves := st.saves ++
      [{ st.record with subtasks := updateEntries sid s out err st.record.subtasks }]
    trace := st.trace ++ [(sid, s)] }

/-- Record the terminal status of one subtask run (`COMPLETED` with output, or
`FAILED` with the error text), as done after each `_execute_subtask` call. -/
def recordOutcome (env : String → ProcResult) (st : ExecSt) (sid : String)
    (sub : NSub) : ExecSt :=
  match execute_subtask env sub with
  | .ok r => update_subtask_status st sid .completed (some r.1) none
  | .error e => update_subtask_status st sid .failed none (some e)

/-- `TaskExecutor._execute_sequential` (lines 177-212): each subtask is set
RUNNING, executed, and recorded COMPLETED/FAILED; failures never stop the loop. -/
def execute_sequential (env : String → ProcResult) : List NSub → ExecSt → ExecSt
  | [], st => st
  | sub :: rest, st =>
    execute_sequential env rest
      (recordOutcome env (update_subtask_status st sub.id .running none none) sub.id sub)

/-- `TaskExecutor._execute_parallel` (lines 214-236): all subtasks are set RUNNING
in scheduling order, then each wrapper records its terminal status (canonical
cooperative interleaving). -/
def execute_parallel (env : String → ProcResult) (subs : List NSub) (st : ExecSt) : ExecSt :=
  subs.foldl (fun s sub => recordOutcome env s sub.id sub)
    (subs.foldl (fun s sub => update_subtask_status s sub.id .running none none) st)

/-- The `subtask_map` dictionary comprehension of `_execute_with_dependencies`
(line 248): keyed by id, later duplicates overwrite earlier ones. -/
def subtaskMapGet (subs : List NSub) (sid : String) : Option NSub :=
  (subs.filter (fun s => s.id == sid)).getLast?

/-- One stage of `_execute_with_dependencies` (lines 251-289).  A singleton stage
runs inline, records FAILED on error and re-raises (`some errorMessage`); any
other stage launches all resolvable members concurrently (canonical interleaving)
and swallows individual failures.  Unresolvable ids are skipped. -/
def execute_group (env : String → ProcResult) (subs : List NSub) (group : List String)
    (st : ExecSt) : ExecSt × Option String :=
  match group with
  | [sid] =>
    match subtaskMapGet subs sid with
    | none => (st, none)
    | some sub =>
      match execute_subtask env sub with
      | .ok r =>
        (update_subtask_status (update_subtask_status st sid .running none none)
          sid .completed (some r.1) none, none)
      | .error e =>
        (update_subtask_status (update_subtask_status st sid .running none none)
          sid .failed none (some e), some e)
  | [] => (st, none)
  | g1 :: g2 :: gs =>
    ((((g1 :: g2 :: gs).filterMap
          (fun sid => (subtaskMapGet subs sid).map (fun sub => (sid, sub)))).foldl
        (fun s p => recordOutcome env s p.1 p.2)
        (((g1 :: g2 :: gs).filterMap
            (fun sid => (subtaskMapGet subs sid).map (fun sub => (sid, sub)))).foldl
          (fun s p => update_subtask_status s p.1 .running none none) st)), none)

/-- `TaskExecutor._execute_with_dependencies` (lines 238-289): execute the plan's
stages in order; a re-raised singleton failure aborts the remaining stages. -/
def execute_with_dependencies (env : String → ProcResult) (subs : List NSub) :
    List (List String) → ExecSt → ExecSt × Option String
  | [], st => (st, none)
  | group :: rest, st =>
    match execute_group env subs group st with
    | (st1, some e) => (st1, some e)
    | (st1, none) => execute_with_dependencies env subs rest st1

/-- The normalised subtasks of a task. -/
def normSubsOf (td : TaskIn) : List NSub :=
  normalizeSubtasks td.executionMode td.subtasks

/-- The initial `task_status` record (lines 119-127): RUNNING, all subtask entries
PENDING (line 122 defaults ids exactly as the normalisation loop does). -/
def initRecordOf (td : TaskIn) : TaskRecord :=
  { taskId := td.id
    status := .running
    subtasks := (normSubsOf td).map
      (fun s => { id := s.id, status := .pending, output := none, error := none })
    executionMode := td.executionMode
    endTime := none }

/-- The state after storing the initial record (lines 130-131). -/
def initStOf (td : TaskIn) : ExecSt :=
  { record := initRecordOf td, saves := [initRecordOf td], trace := [] }

/-- The execution plan attempted at line 148. -/
def planOf (td : TaskIn) : Except String (List (List String)) :=
  create_execution_plan ((normSubsOf td).map nsubToPTask)

/-- The fallback path (lines 152-156, also 157-162): the task's own top-level
execution mode selects plain parallel or sequential execution of all subtasks. -/
def fallbackExec (env : String → ProcResult) (td : TaskIn) (st : ExecSt) : ExecSt :=
  if td.executionMode = ("parallel") then execute_parallel env (normSubsOf td) st
  else execute_sequential env (normSubsOf td) st

/-- Lines 146-162: try dependency-driven execution; ANY exception raised by
planning or by `_execute_with_dependencies` (including the re-raised singleton
failure) is caught at line 150 and triggers the fallback over all subtasks. -/
def depPhase (env : String → ProcResult) (td : TaskIn) : ExecSt :=
  match planOf td with
  | .error _ => fallbackExec env td (initStOf td)
  | .ok plan =>
    match execute_with_dependencies env (normSubsOf td) plan (initStOf td) with
    | (s, none) => s
    | (s, some _) => fallbackExec env td s

/-- Whether the dependency-driven path started executing and then fell back
(i.e. `_execute_with_dependencies` raised after the plan was built). -/
def depFellBack (env : String → ProcResult) (td : TaskIn) : Bool :=
  match planOf td with
  | .error _ => false
  | .ok plan => (execute_with_dependencies env (normSubsOf td) plan (initStOf td)).2.isSome

/-- `TaskExecutor.execute_task` (lines 104-175): initial record, dependency phase
with fallback, then line 165 marks the task COMPLETED (in this typed model no
exception can escape to the `except` at line 166), and the `finally` block sets
`endTime` and persists the final record. -/
def execute_task (env : String → ProcResult) (td : TaskIn) : ExecSt :=
  { record := { { (depPhase env td).record with status := TStatus.completed }
      with endTime := some () }
    saves := (depPhase env td).saves ++
      [{ { (depPhase env td).record with status := TStatus.completed }
        with endTime := some () }]
    trace := (depPhase env td).trace }

/-- The update events recorded for a given subtask id, in order. -/
def eventsOf (sid : String) (st : ExecSt) : List TStatus :=
  (st.trace.filter (fun ev => ev.1 == sid)).map (fun ev => ev.2)

/-- The successive status values of a subtask entry: PENDING at creation, then
every recorded update (for duplicate-free subtask ids this is exactly the entry's
status history). -/
def statusSeq (st : ExecSt) (sid : String) : List TStatus :=
  TStatus.pending :: eventsOf sid st

/-- A backward transition in the sense of the lifecycle invariant: leaving a
terminal state for RUNNING or PENDING. -/
def isBackstep (a b : TStatus) : Bool :=
  (a == TStatus.completed || a == TStatus.failed) &&
    (b == TStatus.running || b == TStatus.pending)

/-- A status history is forward-only when no adjacent pair steps backward. -/
def forwardOnly (l : List TStatus) : Bool :=
  (l.zip l.tail).all (fun p => !(isBackstep p.1 p.2))

/-- The events a single plan stage contributes to subtask `sid`'s history:
a resolvable singleton stage contributes RUNNING plus its terminal status; a
multi-member stage contributes its RUNNING phase and then its terminal phase. -/
def groupEvents (env : String → ProcResult) (subs : List NSub) (sid : String)
    (group : List String) : List TStatus :=
  match group with
  | [g] =>
    if g == sid then
      match subtaskMapGet subs g with
      | none => []
      | some sub => [TStatus.running, termStatus env sub]
    else []
  | [] => []
  | g1 :: g2 :: gs =>
    ((g1 :: g2 :: gs).filterMap
        (fun s => (subtaskMapGet subs s).map (fun sub => (s, sub)))).flatMap
        (fun p => if p.1 == sid then [TStatus.running] else []) ++
      ((g1 :: g2 :: gs).filterMap
          (fun s => (subtaskMapGet subs s).map (fun sub => (s, sub)))).flatMap
        (fun p => if p.1 == sid then [termStatus env p.2] else [])

/-- The event shapes a subtask can receive from any single execution path that did
not fall back mid-run: nothing, or RUNNING followed by one terminal status. -/
def goodEvents (E : List TStatus) : Prop :=
  E = [] ∨ ∃ t, (t = TStatus.completed ∨ t = TStatus.failed) ∧ E = [TStatus.running, t]

/-- Oracle for the runner witness (spec §8, scenario C): `echo hello` succeeds
with stdout `hello` plus a newline; everything else fails. -/
def envHello : String → ProcResult :=
  fun c => if c = ("echo hello") then ⟨0, ("hello\n"), ("")⟩ else ⟨1, (""), ("err")⟩

/-- Process oracle for the counterexamples: the command `boom` exits 1 with
stderr `err`; every other command exits 0 with stdout `out`. -/
def envFail : String → ProcResult :=
  fun c => if c = ("boom") then ⟨1, (""), ("err")⟩ else ⟨0, ("out"), ("")⟩

/-- Counterexample input: subtask `a` fails; subtask `b` depends on `a`.  The plan
is the two singleton stages `[[a], [b]]`. -/
def tdFailFast : TaskIn :=
  { id := ("t")
    subtasks := [⟨some ("a"), some ("boom"), some [], none⟩,
                 ⟨some ("b"), some ("ok"), some [("a")], none⟩]
    executionMode := ("sequential") }

/-- Oracle under which every command succeeds. -/
def envOk : String → ProcResult :=
  fun _ => ⟨0, ("out"), ("")⟩

/-- A one-node graph used to instantiate per-round planning facts. -/
def gX : DGraph := buildGraph [⟨("x"), [], ("sequential")⟩]

/-- Scenario A of the spec (§8): mixed modes. -/
def scenarioA : List PTask :=
  [⟨("task-1"), [], ("sequential")⟩,
   ⟨("task-2"), [("task-1")], ("parallel")⟩,
   ⟨("task-3"), [("task-1")], ("parallel")⟩,
   ⟨("task-4"), [("task-2"), ("task-3")], ("sequential")⟩]

/-- Scenario B of the spec (§8): the same dependency shape, all sequential. -/
def scenarioB : List PTask :=
  [⟨("task-1"), [], ("sequential")⟩,
   ⟨("task-2"), [("task-1")], ("sequential")⟩,
   ⟨("task-3"), [("task-1")], ("sequential")⟩,
   ⟨("task-4"), [("task-2"), ("task-3")], ("sequential")⟩]

/-- Test 3 of `_validate_task_dependencies` (lines 224-236): a task depending on an
undeclared id. -/
def missingDepTasks : List PTask :=
  [⟨("task-1"), [], ("sequential")⟩,
   ⟨("task-2"), [("task-1")], ("sequential")⟩,
   ⟨("task-3"), [("missing-task")], ("sequential")⟩]

/-- A two-node dependency cycle. -/
def cycleTasks : List PTask :=
  [⟨("task-1"), [("task-2")], ("sequential")⟩,
   ⟨("task-2"), [("task-1")], ("sequential")⟩]

/-- Well-formedness maintained by all networkx graph operations: the node list is
duplicate-free and every edge endpoint is a node. -/
structure GraphWF (g : DGraph) : Prop where
  nodup : g.nodes.Nodup
  closed : ∀ e ∈ g.edges, e.1 ∈ g.nodes ∧ e.2 ∈ g.nodes

example : create_execution_plan scenarioA =
    .ok [[("task-1")], [("task-2"), ("task-3")], [("task-4")]] := by rfl

example : create_execution_plan scenarioB =
    .ok [[("task-1")], [("task-2")], [("task-3")], [("task-4")]] := by rfl

example : validate_dependencies (buildGraph missingDepTasks) = [] := by decide

example : create_execution_plan missingDepTasks =
    .ok [[("task-1")], [("missing-task")], [("task-2")], [("task-3")]] := by rfl

example : validate_dependencies (buildGraph cycleTasks) = [cycleMsg] := by decide

example : create_execution_plan cycleTasks = .error cycleMsg := by rfl

example : planOf tdFailFast = .ok [[("a")], [("b")]] := by rfl

example : (execute_task envFail tdFailFast).trace =
    [(("a"), .running), (("a"), .failed), (("a"), .running), (("a"), .failed),
     (("b"), .running), (("b"), .completed)] := by rfl

example : statusSeq (execute_task envFail tdFailFast) ("a") =
    [.pending, .running, .failed, .running, .failed] := by rfl

example : forwardOnly (statusSeq (execute_task envFail tdFailFast) ("a")) = false := by rfl

example : (execute_task envFail tdFailFast).record.status = .completed := by rfl

example : depFellBack envFail tdFailFast = true := by rfl

/-! ### Basic membership lemmas -/

theorem mem_predecessors {g : DGraph} {p n : String} :
    p ∈ predecessors g n ↔ (p, n) ∈ g.edges := by
  simp only [predecessors, List.mem_filterMap]
  constructor
  · rintro ⟨⟨a, b⟩, hmem, hf⟩
    split at hf
    · rename_i h
      have hb : b = n := h
      have ha : a = p := Option.some.inj hf
      subst hb
      subst ha
      exact hmem
    · exact absurd hf (by simp)
  · intro h
    exact ⟨(p, n), h, by simp⟩

theorem mem_readyFilter {g : DGraph} {rem : List String} {t : String} :
    t ∈ readyFilter g rem ↔ t ∈ rem ∧ ∀ p ∈ predecessors g t, p ∉ rem := by
  simp [readyFilter, List.mem_filter]

/-! ### Structural invariants of the built graph -/

theorem mem_ensureNode_nodes {g : DGraph} {n x : String} :
    x ∈ (ensureNode g n).nodes ↔ x ∈ g.nodes ∨ x = n := by
  by_cases h : n ∈ g.nodes
  · simp only [ensureNode, if_pos h]
    constructor
    · exact Or.inl
    · rintro (hx | rfl)
      · exact hx
      · exact h
  · simp [ensureNode, if_neg h]

theorem ensureNode_edges (g : DGraph) (n : String) : (ensureNode g n).edges = g.edges := rfl

theorem addNode_edges (g : DGraph) (n m : String) : (addNode g n m).edges = g.edges := rfl

theorem mem_addNode_nodes {g : DGraph} {n m x : String} :
    x ∈ (addNode g n m).nodes ↔ x ∈ g.nodes ∨ x = n :=
  mem_ensureNode_nodes

theorem mem_addEdge_edges {g : DGraph} {u v : String} {e : String × String} :
    e ∈ (addEdge g u v).edges ↔ e ∈ g.edges ∨ e = (u, v) := by
  show e ∈ (if (u, v) ∈ g.edges then g.edges else g.edges ++ [(u, v)]) ↔ _
  by_cases h : (u, v) ∈ g.edges
  · simp only [if_pos h]
    constructor
    · exact Or.inl
    · rintro (hx | rfl)
      · exact hx
      · exact h
  · simp [if_neg h]

theorem mem_addEdge_nodes {g : DGraph} {u v x : String} :
    x ∈ (addEdge g u v).nodes ↔ x ∈ g.nodes ∨ x = u ∨ x = v := by
  show x ∈ (ensureNode (ensureNode g u) v).nodes ↔ _
  rw [mem_ensureNode_nodes, mem_ensureNode_nodes]
  tauto

theorem ensureNode_nodes (g : DGraph) (n : String) :
    (ensureNode g n).nodes = if n ∈ g.nodes then g.nodes else g.nodes ++ [n] := rfl

theorem ensureNode_wf {g : DGraph} (h : GraphWF g) (n : String) : GraphWF (ensureNode g n) := by
  constructor
  · rw [ensureNode_nodes]
    by_cases hn : n ∈ g.nodes
    · simpa [if_pos hn] using h.nodup
    · rw [if_neg hn]
      refine h.nodup.append (List.nodup_singleton n) ?_
      intro a ha hb
      rw [List.mem_singleton] at hb
      subst hb
      exact hn ha
  · intro e he
    have := h.closed e he
    exact ⟨mem_ensureNode_nodes.mpr (Or.inl this.1), mem_ensureNode_nodes.mpr (Or.inl this.2)⟩

theorem addNode_wf {g : DGraph} (h : GraphWF g) (n m : String) : GraphWF (addNode g n m) := by
  constructor
  · exact (ensureNode_wf h n).nodup
  · intro e he
    exact (ensureNode_wf h n).closed e he

theorem addEdge_wf {g : DGraph} (h : GraphWF g) (u v : String) : GraphWF (addEdge g u v) := by
  have h2 : GraphWF (ensureNode (ensureNode g u) v) := ensureNode_wf (ensureNode_wf h u) v
  constructor
  · exact h2.nodup
  · intro e he
    rw [show (addEdge g u v).nodes = (ensureNode (ensureNode g u) v).nodes from rfl]
    rcases mem_addEdge_edges.mp he with he' | rfl
    · exact h2.closed e he'
    · constructor
      · exact mem_ensureNode_nodes.mpr (Or.inl (mem_ensureNode_nodes.mpr (Or.inr rfl)))
      · exact mem_ensureNode_nodes.mpr (Or.inr rfl)

theorem foldl_addEdge_wf {taskId : String} :
    ∀ (deps : List String) (g : DGraph), GraphWF g →
      GraphWF (deps.foldl (fun g d => addEdge g d taskId) g) := by
  intro deps
  induction deps with
  | nil => intro g h; exact h
  | cons d ds ih => intro g h; exact ih (addEdge g d taskId) (addEdge_wf h d taskId)

theorem add_task_wf {g : DGraph} (h : GraphWF g) (taskId : String) (deps : List String)
    (mode : String) : GraphWF (add_task g taskId deps mode) :=
  foldl_addEdge_wf deps (addNode g taskId mode) (addNode_wf h taskId mode)

theorem buildGraph_wf (tasks : List PTask) : GraphWF (buildGraph tasks) := by
  suffices h : ∀ (ts : List PTask) (g : DGraph), GraphWF g →
      GraphWF (ts.foldl (fun g t => add_task g t.id t.dependencies t.executionMode) g) from
    h tasks emptyGraph ⟨List.nodup_nil, by intro e he; cases he⟩
  intro ts
  induction ts with
  | nil => intro g h; exact h
  | cons t ts ih => intro g h; exact ih _ (add_task_wf h t.id t.dependencies t.executionMode)

/-! ### Characterisation of the built graph's edges and nodes -/

theorem mem_foldl_addEdge_edges {taskId : String} {e : String × String} :
    ∀ (deps : List String) (g : DGraph),
      (e ∈ (deps.foldl (fun g d => addEdge g d taskId) g).edges ↔
        e ∈ g.edges ∨ ∃ d ∈ deps, e = (d, taskId)) := by
  intro deps
  induction deps with
  | nil => intro g; simp
  | cons d ds ih =>
    intro g
    rw [List.foldl_cons, ih (addEdge g d taskId)]
    rw [mem_addEdge_edges]
    constructor
    · rintro ((h | rfl) | ⟨d', hd', rfl⟩)
      · exact Or.inl h
      · exact Or.inr ⟨d, by simp⟩
      · exact Or.inr ⟨d', by simp [hd']⟩
    · rintro (h | ⟨d', hd', rfl⟩)
      · exact Or.inl (Or.inl h)
      · rcases List.mem_cons.mp hd' with rfl | hd''
        · exact Or.inl (Or.inr rfl)
        · exact Or.inr ⟨d', hd'', rfl⟩

theorem mem_add_task_edges {g : DGraph} {taskId mode : String} {deps : List String}
    {e : String × String} :
    e ∈ (add_task g taskId deps mode).edges ↔ e ∈ g.edges ∨ ∃ d ∈ deps, e = (d, taskId) := by
  rw [show (add_task g taskId deps mode) = deps.foldl (fun g d => addEdge g d taskId)
    (addNode g taskId mode) from rfl, mem_foldl_addEdge_edges, addNode_edges]

theorem mem_buildGraph_edges {tasks : List PTask} {e : String × String} :
    e ∈ (buildGraph tasks).edges ↔ ∃ t ∈ tasks, e.2 = t.id ∧ e.1 ∈ t.dependencies := by
  suffices h : ∀ (ts : List PTask) (g : DGraph),
      (e ∈ (ts.foldl (fun g t => add_task g t.id t.dependencies t.executionMode) g).edges ↔
        e ∈ g.edges ∨ ∃ t ∈ ts, e.2 = t.id ∧ e.1 ∈ t.dependencies) by
    rw [buildGraph, h tasks emptyGraph]
    simp [emptyGraph]
  intro ts
  induction ts with
  | nil => intro g; simp
  | cons t ts ih =>
    intro g
    rw [List.foldl_cons, ih (add_task g t.id t.dependencies t.executionMode),
      mem_add_task_edges]
    constructor
    · rintro ((h | ⟨d, hd, rfl⟩) | ⟨t', ht', h1, h2⟩)
      · exact Or.inl h
      · exact Or.inr ⟨t, by simp [hd]⟩
      · exact Or.inr ⟨t', List.mem_cons_of_mem _ ht', h1, h2⟩
    · rintro (h | ⟨t', ht', h1, h2⟩)
      · exact Or.inl (Or.inl h)
      · rcases List.mem_cons.mp ht' with rfl | ht''
        · exact Or.inl (Or.inr ⟨e.1, h2, by rw [← h1]⟩)
        · exact Or.inr ⟨t', ht'', h1, h2⟩

theorem edgeRel_buildGraph_iff {tasks : List PTask} {a b : String} :
    edgeRel (buildGraph tasks) a b ↔ depRel tasks a b := by
  rw [edgeRel, mem_buildGraph_edges]
  constructor
  · rintro ⟨t, ht, h1, h2⟩; exact ⟨t, ht, h1.symm, h2⟩
  · rintro ⟨t, ht, h1, h2⟩; exact ⟨t, ht, h1.symm, h2⟩

theorem mem_foldl_addEdge_nodes {taskId : String} {x : String} :
    ∀ (deps : List String) (g : DGraph), taskId ∈ g.nodes →
      (x ∈ (deps.foldl (fun g d => addEdge g d taskId) g).nodes ↔
        x ∈ g.nodes ∨ x ∈ deps) := by
  intro deps
  induction deps with
  | nil => intro g _; simp
  | cons d ds ih =>
    intro g hid
    rw [List.foldl_cons, ih (addEdge g d taskId)
      (mem_addEdge_nodes.mpr (Or.inl hid)), mem_addEdge_nodes]
    constructor
    · rintro ((h | rfl | rfl) | h)
      · exact Or.inl h
      · exact Or.inr (by simp)
      · exact Or.inl hid
      · exact Or.inr (List.mem_cons_of_mem _ h)
    · rintro (h | h)
      · exact Or.inl (Or.inl h)
      · rcases List.mem_cons.mp h with rfl | h'
        · exact Or.inl (Or.inr (Or.inl rfl))
        · exact Or.inr h'

theorem mem_add_task_nodes {g : DGraph} {taskId mode : String} {deps : List String}
    {x : String} :
    x ∈ (add_task g taskId deps mode).nodes ↔ x ∈ g.nodes ∨ x = taskId ∨ x ∈ deps := by
  rw [show (add_task g taskId deps mode) = deps.foldl (fun g d => addEdge g d taskId)
    (addNode g taskId mode) from rfl,
    mem_foldl_addEdge_nodes deps _ (mem_addNode_nodes.mpr (Or.inr rfl)), mem_addNode_nodes]
  tauto

theorem mem_buildGraph_nodes {tasks : List PTask} {x : String} :
    x ∈ (buildGraph tasks).nodes ↔
      (∃ t ∈ tasks, x = t.id) ∨ ∃ t ∈ tasks, x ∈ t.dependencies := by
  suffices h : ∀ (ts : List PTask) (g : DGraph),
      (x ∈ (ts.foldl (fun g t => add_task g t.id t.dependencies t.executionMode) g).nodes ↔
        x ∈ g.nodes ∨ (∃ t ∈ ts, x = t.id) ∨ ∃ t ∈ ts, x ∈ t.dependencies) by
    rw [buildGraph, h tasks emptyGraph]
    simp [emptyGraph]
  intro ts
  induction ts with
  | nil => intro g; simp
  | cons t ts ih =>
    intro g
    rw [List.foldl_cons, ih (add_task g t.id t.dependencies t.executionMode),
      mem_add_task_nodes]
    constructor
    · rintro ((h | rfl | h) | ⟨t', ht', h'⟩ | ⟨t', ht', h'⟩)
      · exact Or.inl h
      · exact Or.inr (Or.inl ⟨t, by simp⟩)
      · exact Or.inr (Or.inr ⟨t, by simp [h]⟩)
      · exact Or.inr (Or.inl ⟨t', List.mem_cons_of_mem _ ht', h'⟩)
      · exact Or.inr (Or.inr ⟨t', List.mem_cons_of_mem _ ht', h'⟩)
    · rintro (h | ⟨t', ht', h'⟩ | ⟨t', ht', h'⟩)
      · exact Or.inl (Or.inl h)
      · rcases List.mem_cons.mp ht' with rfl | h''
        · exact Or.inl (Or.inr (Or.inl h'))
        · exact Or.inr (Or.inl ⟨t', h'', h'⟩)
      · rcases List.mem_cons.mp ht' with rfl | h''
        · exact Or.inl (Or.inr (Or.inr h'))
        · exact Or.inr (Or.inr ⟨t', h'', h'⟩)

/-! ### Acyclicity and the ready set

On an acyclic graph every nonempty remaining set contains a ready task (a task
none of whose predecessors are still remaining); conversely, the vertex set of
any directed cycle can never become ready, so the peeling process gets stuck.
These two facts justify the `peel`-based model of `nx.find_cycle` and discharge
the planner's fatal-error branch.  -/

theorem exists_ready {g : DGraph} (hacyc : ∀ n, ¬ Relation.TransGen (edgeRel g) n n)
    {rem : List String} (hne : rem ≠ []) :
    ∃ t ∈ rem, ∀ p ∈ predecessors g t, p ∉ rem := by
  haveI : Finite {x // x ∈ rem} := (rem.finite_toSet).to_subtype
  let r' : {x // x ∈ rem} → {x // x ∈ rem} → Prop :=
    fun a b => Relation.TransGen (edgeRel g) a.1 b.1
  haveI : IsTrans {x // x ∈ rem} r' := ⟨fun _ _ _ hab hbc => Relation.TransGen.trans hab hbc⟩
  haveI : IsIrrefl {x // x ∈ rem} r' := ⟨fun a h => hacyc a.1 h⟩
  obtain ⟨t, ht⟩ := List.exists_mem_of_ne_nil rem hne
  obtain ⟨a, -, hmin⟩ :=
    (Finite.wellFounded_of_trans_of_irrefl r').has_min Set.univ ⟨⟨t, ht⟩, trivial⟩
  refine ⟨a.1, a.2, ?_⟩
  intro p hp hpmem
  exact hmin ⟨p, hpmem⟩ trivial (Relation.TransGen.single (mem_predecessors.mp hp))

theorem readyFilter_ne_nil {g : DGraph} (hacyc : ∀ n, ¬ Relation.TransGen (edgeRel g) n n)
    {rem : List String} (hne : rem ≠ []) : readyFilter g rem ≠ [] := by
  obtain ⟨t, ht, hready⟩ := exists_ready hacyc hne
  exact List.ne_nil_of_mem (mem_readyFilter.mpr ⟨ht, hready⟩)

theorem remove_ready_length_lt {g : DGraph} {rem : List String}
    (hne : readyFilter g rem ≠ []) :
    (rem.filter (fun x => !((readyFilter g rem).contains x))).length < rem.length := by
  obtain ⟨t, ht⟩ := List.exists_mem_of_ne_nil _ hne
  refine List.length_filter_lt_length_iff_exists.mpr ⟨t, (mem_readyFilter.mp ht).1, ?_⟩
  simp [ht]

theorem peel_eq_nil_of_acyclic {g : DGraph}
    (hacyc : ∀ n, ¬ Relation.TransGen (edgeRel g) n n) :
    ∀ (f : Nat) (rem : List String), rem.length ≤ f → peel g f rem = [] := by
  intro f
  induction f with
  | zero =>
    intro rem hlen
    rw [List.length_eq_zero.mp (Nat.le_zero.mp hlen)]
    rfl
  | succ f ih =>
    intro rem hlen
    by_cases hrem : rem = []
    · subst hrem
      rw [peel, if_pos (show readyFilter g [] = [] from rfl)]
    · have hready := readyFilter_ne_nil hacyc hrem
      rw [peel, if_neg hready]
      exact ih _ (Nat.le_of_lt_succ (Nat.lt_of_lt_of_le (remove_ready_length_lt hready) hlen))

theorem peel_ne_nil_of_closed {g : DGraph} {C : List String} (hCne : C ≠ [])
    (hclosed : ∀ m ∈ C, ∃ p ∈ C, edgeRel g p m) :
    ∀ (f : Nat) (rem : List String), (∀ m ∈ C, m ∈ rem) → peel g f rem ≠ [] := by
  have hCrem : ∀ (rem : List String), (∀ m ∈ C, m ∈ rem) → rem ≠ [] := by
    intro rem hsub h0
    obtain ⟨m, hm⟩ := List.exists_mem_of_ne_nil C hCne
    rw [h0] at hsub
    exact (List.not_mem_nil m) (hsub m hm)
  have hnotready : ∀ (rem : List String), (∀ m ∈ C, m ∈ rem) →
      ∀ m ∈ C, m ∉ readyFilter g rem := by
    intro rem hsub m hm hmem
    obtain ⟨p, hpC, hpe⟩ := hclosed m hm
    exact (mem_readyFilter.mp hmem).2 p (mem_predecessors.mpr hpe) (hsub p hpC)
  intro f
  induction f with
  | zero => intro rem hsub; exact hCrem rem hsub
  | succ f ih =>
    intro rem hsub
    rw [peel]
    by_cases hready : readyFilter g rem = []
    · rw [if_pos hready]; exact hCrem rem hsub
    · rw [if_neg hready]
      refine ih _ ?_
      intro m hm
      rw [List.mem_filter]
      refine ⟨hsub m hm, ?_⟩
      simpa using hnotready rem hsub m hm

/-- From a cycle through `a`, extract a finite list of vertices each of which has a
predecessor inside the list. -/
theorem exists_pred_closed_list {r : String → String → Prop} {a : String}
    (h : Relation.TransGen r a a) :
    ∃ C : List String, a ∈ C ∧ ∀ m ∈ C, ∃ p ∈ C, r p m := by
  have aux : ∀ {b : String}, Relation.TransGen r a b →
      ∃ C : List String, b ∈ C ∧ ∀ m ∈ C, (∃ p ∈ C, r p m) ∨ r a m := by
    intro b hb
    induction hb with
    | single hab =>
      rename_i c
      refine ⟨[c], by simp, ?_⟩
      intro m hm
      rw [List.mem_singleton] at hm
      subst hm
      exact Or.inr hab
    | tail h₁ h₂ ih =>
      rename_i b' c
      obtain ⟨C, hbC, hC⟩ := ih
      refine ⟨c :: C, by simp, ?_⟩
      intro m hm
      rcases List.mem_cons.mp hm with rfl | hmC
      · exact Or.inl ⟨b', List.mem_cons_of_mem _ hbC, h₂⟩
      · rcases hC m hmC with ⟨p, hpC, hpr⟩ | har
        · exact Or.inl ⟨p, List.mem_cons_of_mem _ hpC, hpr⟩
        · exact Or.inr har
  obtain ⟨C, haC, hC⟩ := aux h
  refine ⟨C, haC, ?_⟩
  intro m hm
  rcases hC m hm with ⟨p, hpC, hpr⟩ | har
  · exact ⟨p, hpC, hpr⟩
  · exact ⟨a, haC, har⟩

theorem hasCycleB_eq_false_of_acyclic {g : DGraph}
    (hacyc : ∀ n, ¬ Relation.TransGen (edgeRel g) n n) : hasCycleB g = false := by
  rw [hasCycleB, peel_eq_nil_of_acyclic hacyc g.nodes.length g.nodes (le_refl _)]
  rfl

theorem hasCycleB_eq_true_of_cycle {g : DGraph} (hwf : GraphWF g) {n : String}
    (hcyc : Relation.TransGen (edgeRel g) n n) : hasCycleB g = true := by
  obtain ⟨C, hnC, hC⟩ := exists_pred_closed_list hcyc
  have hCnodes : ∀ m ∈ C, m ∈ g.nodes := by
    intro m hm
    obtain ⟨p, _, hpe⟩ := hC m hm
    exact (hwf.closed (p, m) hpe).2
  have := peel_ne_nil_of_closed (List.ne_nil_of_mem hnC) hC g.nodes.length g.nodes hCnodes
  rw [hasCycleB]
  simpa [List.isEmpty_iff] using this

/-- The peel-based model of `nx.find_cycle` is exactly directed-cycle existence. -/
theorem hasCycleB_eq_true_iff {g : DGraph} (hwf : GraphWF g) :
    hasCycleB g = true ↔ ∃ n, Relation.TransGen (edgeRel g) n n := by
  constructor
  · intro h
    by_contra hno
    push_neg at hno
    rw [hasCycleB_eq_false_of_acyclic hno] at h
    exact Bool.false_ne_true h
  · rintro ⟨n, hn⟩
    exact hasCycleB_eq_true_of_cycle hwf hn

/-! ### The validator -/

theorem missing_dependency_errors_eq_nil {g : DGraph} (hwf : GraphWF g) :
    missing_dependency_errors g = [] := by
  rw [List.eq_nil_iff_forall_not_mem]
  intro x hx
  rw [missing_dependency_errors, List.mem_flatMap] at hx
  obtain ⟨node, -, hx⟩ := hx
  rw [List.mem_filterMap] at hx
  obtain ⟨p, hp, hif⟩ := hx
  split at hif
  · exact Option.noConfusion hif
  · rename_i hnot
    exact hnot (hwf.closed (p, node) (mem_predecessors.mp hp)).1

theorem validate_dependencies_eq {g : DGraph} (hwf : GraphWF g) :
    validate_dependencies g = if hasCycleB g then [cycleMsg] else [] := by
  rw [validate_dependencies, missing_dependency_errors_eq_nil hwf, List.append_nil]

theorem validate_eq_nil_iff {g : DGraph} (hwf : GraphWF g) :
    validate_dependencies g = [] ↔ hasCycleB g = false := by
  rw [validate_dependencies_eq hwf]
  by_cases h : hasCycleB g
  · simp [h]
  · simp [h]

theorem peel_nodes_eq_nil_of_validate {g : DGraph} (hwf : GraphWF g)
    (hv : validate_dependencies g = []) : peel g g.nodes.length g.nodes = [] := by
  have := (validate_eq_nil_iff hwf).mp hv
  rw [hasCycleB] at this
  simpa [List.isEmpty_iff] using this

/-! ### The planning loop -/

theorem flatten_map_singleton (l : List String) : (l.map (fun t => [t])).flatten = l := by
  induction l with
  | nil => rfl
  | cons a l ih => simp [ih]

theorem roundStages_flatten_perm (g : DGraph) (ready : List String) :
    List.Perm (roundStages g ready).flatten ready := by
  rw [roundStages, List.flatten_append, flatten_map_singleton]
  have h2 : (if ready.filter (fun t => getMode g t == ("parallel")) = [] then []
      else [ready.filter (fun t => getMode g t == ("parallel"))]).flatten
      = ready.filter (fun t => getMode g t == ("parallel")) := by
    split
    · rename_i h; rw [h]; rfl
    · simp
  rw [h2]
  have hcong : ready.filter (fun t => getMode g t == ("parallel"))
      = ready.filter (fun x => !(!(getMode g x == ("parallel")))) := by
    apply List.filter_congr
    intro x _
    rw [Bool.not_not]
  rw [hcong]
  exact List.filter_append_perm _ ready

theorem readyFilter_append_perm (g : DGraph) (rem : List String) :
    List.Perm (readyFilter g rem ++ rem.filter (fun x => !((readyFilter g rem).contains x)))
      rem := by
  have hcong : rem.filter (fun x => !((readyFilter g rem).contains x))
      = rem.filter
          (fun x => !((predecessors g x).all (fun p => !(rem.contains p)))) := by
    apply List.filter_congr
    intro x hx
    by_cases hq : (predecessors g x).all (fun p => !(rem.contains p)) = true
    · have hmem : x ∈ readyFilter g rem := List.mem_filter.mpr ⟨hx, hq⟩
      have hc : (readyFilter g rem).contains x = true := by simpa using hmem
      rw [hc, hq]
    · have hmem : x ∉ readyFilter g rem := by
        intro hmem
        exact hq (List.mem_filter.mp hmem).2
      have hc : (readyFilter g rem).contains x = false := by simpa using hmem
      simp only [Bool.not_eq_true] at hq
      rw [hc, hq]
  rw [hcong]
  exact List.filter_append_perm _ rem

/-- Functional correctness of the `while` loop (lines 125-161): if peeling empties
the remaining set (no cycle among the remaining tasks), the loop succeeds, the
produced stages are a permutation of the remaining set, and every predecessor of a
staged task was either already scheduled before this call or sits in a strictly
earlier stage. -/
theorem planLoop_spec (g : DGraph) :
    ∀ (f : Nat) (rem : List String), peel g f rem = [] → rem.Nodup →
      ∃ stages, planLoop g f rem = .ok stages ∧ List.Perm stages.flatten rem ∧
        ∀ (i : Nat) (hi : i < stages.length), ∀ t ∈ stages[i],
          ∀ p ∈ predecessors g t,
            p ∉ rem ∨ ∃ (j : Nat) (hj : j < stages.length), j < i ∧ p ∈ stages[j] := by
  intro f
  induction f with
  | zero =>
    intro rem hpeel hnd
    have hrem : rem = [] := hpeel
    subst hrem
    exact ⟨[], rfl, by simp, by intro i hi; exact absurd hi (by simp)⟩
  | succ f ih =>
    intro rem hpeel hnd
    by_cases hrem : rem = []
    · subst hrem
      exact ⟨[], rfl, by simp, by intro i hi; exact absurd hi (by simp)⟩
    · have hready : readyFilter g rem ≠ [] := by
        intro h0
        rw [peel, if_pos h0] at hpeel
        exact hrem hpeel
      have hpeel' : peel g f (rem.filter (fun x => !((readyFilter g rem).contains x))) = [] := by
        rw [peel, if_neg hready] at hpeel
        exact hpeel
      have hnd' := hnd.filter (fun x => !((readyFilter g rem).contains x))
      obtain ⟨rest, hok, hperm, hord⟩ := ih _ hpeel' hnd'
      refine ⟨roundStages g (readyFilter g rem) ++ rest, ?_, ?_, ?_⟩
      · rw [planLoop, if_neg hrem, if_neg hready, hok]
        rfl
      · rw [List.flatten_append]
        exact ((roundStages_flatten_perm g _).append hperm).trans
          (readyFilter_append_perm g rem)
      · intro i hi t ht p hp
        have hlen : (roundStages g (readyFilter g rem) ++ rest).length
            = (roundStages g (readyFilter g rem)).length + rest.length :=
          List.length_append _ _
        by_cases hif : i < (roundStages g (readyFilter g rem)).length
        · have hsi : (roundStages g (readyFilter g rem) ++ rest)[i]
              = (roundStages g (readyFilter g rem))[i] := List.getElem_append_left hif
          rw [hsi] at ht
          have htflat : t ∈ (roundStages g (readyFilter g rem)).flatten :=
            List.mem_flatten.mpr ⟨_, List.getElem_mem hif, ht⟩
          have htready : t ∈ readyFilter g rem :=
            (roundStages_flatten_perm g _).mem_iff.mp htflat
          exact Or.inl ((mem_readyFilter.mp htready).2 p hp)
        · have hflei : (roundStages g (readyFilter g rem)).length ≤ i := Nat.le_of_not_lt hif
          have hi' : i - (roundStages g (readyFilter g rem)).length < rest.length := by
            omega
          have hsi : (roundStages g (readyFilter g rem) ++ rest)[i]
              = rest[i - (roundStages g (readyFilter g rem)).length] :=
            List.getElem_append_right hflei
          rw [hsi] at ht
          rcases hord _ hi' t ht p hp with hnotin | ⟨j', hj', hij', hpj'⟩
          · by_cases hprem : p ∈ rem
            · have hpready : p ∈ readyFilter g rem := by
                by_contra hnp
                exact hnotin (List.mem_filter.mpr ⟨hprem, by simp [hnp]⟩)
              have hpflat : p ∈ (roundStages g (readyFilter g rem)).flatten :=
                (roundStages_flatten_perm g _).mem_iff.mpr hpready
              obtain ⟨l, hl, hpl⟩ := List.mem_flatten.mp hpflat
              obtain ⟨j, hj, hlj⟩ := List.mem_iff_getElem.mp hl
              refine Or.inr ⟨j, by omega, by omega, ?_⟩
              rw [List.getElem_append_left hj, hlj]
              exact hpl
            · exact Or.inl hprem
          · refine Or.inr ⟨(roundStages g (readyFilter g rem)).length + j', by omega,
              by omega, ?_⟩
            have : (roundStages g (readyFilter g rem) ++ rest)[
                (roundStages g (readyFilter g rem)).length + j'] = rest[j'] := by
              rw [List.getElem_append_right (by omega)]
              congr 1
              omega
            rw [this]
            exact hpj'

/-- In a duplicate-free flattened stage list, each task occurs in exactly one stage. -/
theorem stage_unique {L : List (List String)} (h : L.flatten.Nodup) {i j : Nat}
    (hi : i < L.length) (hj : j < L.length) {s : String}
    (hsi : s ∈ L[i]) (hsj : s ∈ L[j]) : i = j := by
  rcases List.nodup_flatten.mp h with ⟨-, hdisj⟩
  rcases Nat.lt_trichotomy i j with hij | rfl | hij
  · have hd := List.pairwise_iff_get.mp hdisj ⟨i, hi⟩ ⟨j, hj⟩ hij
    rw [List.get_eq_getElem, List.get_eq_getElem] at hd
    exact absurd (hd hsi hsj) not_false
  · rfl
  · have hd := List.pairwise_iff_get.mp hdisj ⟨j, hj⟩ ⟨i, hi⟩ hij
    rw [List.get_eq_getElem, List.get_eq_getElem] at hd
    exact absurd (hd hsj hsi) not_false

/-- The declared dependency relation and the built graph's edge relation generate
the same transitive closure. -/
theorem transGen_depRel_iff {tasks : List PTask} {a b : String} :
    Relation.TransGen (depRel tasks) a b ↔
      Relation.TransGen (edgeRel (buildGraph tasks)) a b :=
  ⟨Relation.TransGen.mono (fun _ _ h => edgeRel_buildGraph_iff.mpr h),
   Relation.TransGen.mono (fun _ _ h => edgeRel_buildGraph_iff.mp h)⟩

/-- Decidable acyclicity certificate: if the peel-based cycle check is false, the
declared dependency relation is acyclic. -/
theorem acyclic_of_hasCycleB_eq_false {tasks : List PTask}
    (h : hasCycleB (buildGraph tasks) = false) :
    ∀ n, ¬ Relation.TransGen (depRel tasks) n n := by
  intro n hn
  have := hasCycleB_eq_true_of_cycle (buildGraph_wf tasks) (transGen_depRel_iff.mp hn)
  rw [h] at this
  exact Bool.false_ne_true this

theorem create_execution_plan_eq_planLoop {tasks : List PTask}
    (hv : validate_dependencies (buildGraph tasks) = []) :
    create_execution_plan tasks =
      planLoop (buildGraph tasks) (buildGraph tasks).nodes.length
        (buildGraph tasks).nodes := by
  simp only [create_execution_plan, hv]
  simp

/-! ### Claims C1-C5 (planner and validator) -/

/-- C1: for every list of task descriptors whose dependency relation is acyclic and
references only declared ids, `create_execution_plan` returns a stage list whose
concatenation contains every task id exactly once, and every dependency of a task
appears in a strictly earlier stage than the task itself. -/
theorem claim_C1_acyclic_plan_complete_and_ordered (tasks : List PTask)
    (hacyc : ∀ n, ¬ Relation.TransGen (depRel tasks) n n)
    (hdecl : ∀ t ∈ tasks, ∀ d ∈ t.dependencies, d ∈ tasks.map PTask.id) :
    ∃ plan, create_execution_plan tasks = .ok plan ∧ plan.flatten.Nodup ∧
      (∀ s, s ∈ plan.flatten ↔ s ∈ tasks.map PTask.id) ∧
      ∀ t ∈ tasks, ∀ d ∈ t.dependencies,
        ∀ (i : Nat) (hi : i < plan.length) (j : Nat) (hj : j < plan.length),
          t.id ∈ plan[i] → d ∈ plan[j] → j < i := by
  have hwf := buildGraph_wf tasks
  have hacycE : ∀ n, ¬ Relation.TransGen (edgeRel (buildGraph tasks)) n n :=
    fun n hn => hacyc n (transGen_depRel_iff.mpr hn)
  have hv : validate_dependencies (buildGraph tasks) = [] :=
    (validate_eq_nil_iff hwf).mpr (hasCycleB_eq_false_of_acyclic hacycE)
  have hpeel : peel (buildGraph tasks) (buildGraph tasks).nodes.length
      (buildGraph tasks).nodes = [] :=
    peel_eq_nil_of_acyclic hacycE _ _ (le_refl _)
  obtain ⟨stages, hok, hperm, hord⟩ := planLoop_spec _ _ _ hpeel hwf.nodup
  have hplan : create_execution_plan tasks = .ok stages := by
    rw [create_execution_plan_eq_planLoop hv]
    exact hok
  have hnodup : stages.flatten.Nodup := hperm.nodup_iff.mpr hwf.nodup
  refine ⟨stages, hplan, hnodup, ?_, ?_⟩
  · intro s
    rw [hperm.mem_iff, mem_buildGraph_nodes]
    constructor
    · rintro (⟨t, ht, rfl⟩ | ⟨t, ht, hd⟩)
      · exact List.mem_map.mpr ⟨t, ht, rfl⟩
      · exact hdecl t ht s hd
    · intro hs
      obtain ⟨t, ht, rfl⟩ := List.mem_map.mp hs
      exact Or.inl ⟨t, ht, rfl⟩
  · intro t ht d hd i hi j hj hti hdj
    have hedge : (d, t.id) ∈ (buildGraph tasks).edges :=
      mem_buildGraph_edges.mpr ⟨t, ht, rfl, hd⟩
    have hdnode : d ∈ (buildGraph tasks).nodes :=
      (hwf.closed (d, t.id) hedge).1
    rcases hord i hi t.id hti d (mem_predecessors.mpr hedge) with hnot | ⟨j', hj', hij', hdj'⟩
    · exact absurd hdnode hnot
    · rwa [stage_unique hnodup hj hj' hdj hdj']

/-- C1 witness: scenario A is acyclic with declared dependencies, and the theorem
applies to it. -/
theorem claim_C1_witness :
    (∀ n, ¬ Relation.TransGen (depRel scenarioA) n n) ∧
    (∀ t ∈ scenarioA, ∀ d ∈ t.dependencies, d ∈ scenarioA.map PTask.id) ∧
    ∃ plan, create_execution_plan scenarioA = .ok plan ∧ plan.flatten.Nodup ∧
      (∀ s, s ∈ plan.flatten ↔ s ∈ scenarioA.map PTask.id) ∧
      ∀ t ∈ scenarioA, ∀ d ∈ t.dependencies,
        ∀ (i : Nat) (hi : i < plan.length) (j : Nat) (hj : j < plan.length),
          t.id ∈ plan[i] → d ∈ plan[j] → j < i := by
  have hacyc : ∀ n, ¬ Relation.TransGen (depRel scenarioA) n n :=
    @acyclic_of_hasCycleB_eq_false scenarioA (by decide)
  exact ⟨hacyc, by decide,
    claim_C1_acyclic_plan_complete_and_ordered scenarioA hacyc (by decide)⟩

/-- C2 (code bug): the claim says a task list with an undeclared dependency id makes
`validate_dependencies` report a missing-dependency error and refuses planning.  In
the code `add_edge` silently inserts the undeclared id as a graph node, so the
check at line 90 never fires: on the module's own Test-3 input (lines 224-236,
whose assertion `len(errors) > 0` therefore fails) the validator returns `[]` and
the planner even schedules the phantom id as a stage of its own. -/
theorem claim_C2_missing_dep_not_reported :
    (∃ t ∈ missingDepTasks, ∃ d ∈ t.dependencies, d ∉ missingDepTasks.map PTask.id) ∧
    validate_dependencies (buildGraph missingDepTasks) = [] ∧
    create_execution_plan missingDepTasks =
      .ok [[("task-1")], [("missing-task")], [("task-2")], [("task-3")]] := by
  exact ⟨by decide, by decide, by rfl⟩

/-- C3: a graph with at least one directed dependency cycle makes
`validate_dependencies` return exactly one (cycle-related) error, and
`create_execution_plan` raises a dependency error instead of producing a plan. -/
theorem claim_C3_cycle_single_error_and_refusal (tasks : List PTask)
    (hcyc : ∃ n, Relation.TransGen (depRel tasks) n n) :
    validate_dependencies (buildGraph tasks) = [cycleMsg] ∧
    create_execution_plan tasks = .error cycleMsg := by
  obtain ⟨n, hn⟩ := hcyc
  have hwf := buildGraph_wf tasks
  have htrue := hasCycleB_eq_true_of_cycle hwf (transGen_depRel_iff.mp hn)
  have hval : validate_dependencies (buildGraph tasks) = [cycleMsg] := by
    rw [validate_dependencies_eq hwf, htrue]
    rfl
  refine ⟨hval, ?_⟩
  simp only [create_execution_plan, hval]
  norm_num
  decide

/-- C3 witness: the two-task cycle. -/
theorem claim_C3_witness :
    (∃ n, Relation.TransGen (depRel cycleTasks) n n) ∧
    validate_dependencies (buildGraph cycleTasks) = [cycleMsg] ∧
    create_execution_plan cycleTasks = .error cycleMsg := by
  have h12 : depRel cycleTasks ("task-1") ("task-2") :=
    ⟨⟨("task-2"), [("task-1")], ("sequential")⟩, by decide, rfl, by decide⟩
  have h21 : depRel cycleTasks ("task-2") ("task-1") :=
    ⟨⟨("task-1"), [("task-2")], ("sequential")⟩, by decide, rfl, by decide⟩
  have hcyc : ∃ n, Relation.TransGen (depRel cycleTasks) n n :=
    ⟨("task-1"), Relation.TransGen.head h12 (Relation.TransGen.single h21)⟩
  exact ⟨hcyc, claim_C3_cycle_single_error_and_refusal cycleTasks hcyc⟩

/-- C4: in every planning round the ready subset is partitioned by each node's own
execution mode — sequential ready tasks become singleton stages in discovery order,
then the parallel ready tasks are appended as one combined stage (`roundStages`);
scenario A yields `[[1],[2,3],[4]]` and scenario B yields `[[1],[2],[3],[4]]`. -/
theorem claim_C4_mode_partitioning :
    (∀ (g : DGraph) (f : Nat) (rem : List String), rem ≠ [] → readyFilter g rem ≠ [] →
      planLoop g (f + 1) rem =
        (planLoop g f (rem.filter (fun x => !((readyFilter g rem).contains x)))).map
          (fun rest => roundStages g (readyFilter g rem) ++ rest)) ∧
    create_execution_plan scenarioA =
      .ok [[("task-1")], [("task-2"), ("task-3")], [("task-4")]] ∧
    create_execution_plan scenarioB =
      .ok [[("task-1")], [("task-2")], [("task-3")], [("task-4")]] := by
  refine ⟨?_, by rfl, by rfl⟩
  intro g f rem h1 h2
  rw [planLoop, if_neg h1, if_neg h2]

/-- C4 witness: one planning round on the one-node graph. -/
theorem claim_C4_witness :
    ([("x")] : List String) ≠ [] ∧ readyFilter gX [("x")] ≠ [] ∧
    planLoop gX 1 [("x")] =
      (planLoop gX 0 ([("x")].filter (fun x => !((readyFilter gX [("x")]).contains x)))).map
        (fun rest => roundStages gX (readyFilter gX [("x")]) ++ rest) :=
  ⟨by decide, by decide, claim_C4_mode_partitioning.1 gX 0 [("x")] (by decide) (by decide)⟩

/-- C5: once validation has passed (empty error list), the planning loop's
ready-empty-while-remaining-nonempty branch is unreachable: `create_execution_plan`
succeeds and in particular never raises the fatal planning error. -/
theorem claim_C5_no_planning_invariant_error (tasks : List PTask)
    (hv : validate_dependencies (buildGraph tasks) = []) :
    (∃ plan, create_execution_plan tasks = .ok plan) ∧
    create_execution_plan tasks ≠ .error planningErrMsg := by
  have hwf := buildGraph_wf tasks
  have hpeel := peel_nodes_eq_nil_of_validate hwf hv
  obtain ⟨stages, hok, -, -⟩ := planLoop_spec _ _ _ hpeel hwf.nodup
  have hplan : create_execution_plan tasks = .ok stages := by
    rw [create_execution_plan_eq_planLoop hv]
    exact hok
  refine ⟨⟨stages, hplan⟩, ?_⟩
  rw [hplan]
  intro h
  exact Except.noConfusion h

/-- C5 witness: scenario B validates cleanly and the theorem applies to it. -/
theorem claim_C5_witness :
    validate_dependencies (buildGraph scenarioB) = [] ∧
    (∃ plan, create_execution_plan scenarioB = .ok plan) ∧
    create_execution_plan scenarioB ≠ .error planningErrMsg := by
  have h := claim_C5_no_planning_invariant_error scenarioB (by decide)
  exact ⟨by decide, h.1, h.2⟩

/-! ### Event-trace lemmas for the executor -/

theorem eventsOf_update (sid sid' : String) (s : TStatus) (out err : Option String)
    (st : ExecSt) :
    eventsOf sid (update_subtask_status st sid' s out err)
      = eventsOf sid st ++ (if sid' == sid then [s] else []) := by
  rw [eventsOf, update_subtask_status]
  simp only [List.filter_append, List.map_append]
  congr 1
  by_cases h : sid' == sid
  · simp [List.filter, h]
  · simp [List.filter, h]

theorem termStatus_cases (env : String → ProcResult) (sub : NSub) :
    termStatus env sub = TStatus.completed ∨ termStatus env sub = TStatus.failed := by
  rw [termStatus]
  cases execute_subtask env sub
  · exact Or.inr rfl
  · exact Or.inl rfl

theorem eventsOf_recordOutcome (env : String → ProcResult) (st : ExecSt)
    (sid' sid : String) (sub : NSub) :
    eventsOf sid (recordOutcome env st sid' sub)
      = eventsOf sid st ++ (if sid' == sid then [termStatus env sub] else []) := by
  rw [recordOutcome, termStatus]
  cases execute_subtask env sub
  · rw [eventsOf_update]
  · rw [eventsOf_update]

theorem eventsOf_execute_sequential (env : String → ProcResult) (sid : String) :
    ∀ (subs : List NSub) (st : ExecSt),
      eventsOf sid (execute_sequential env subs st) = eventsOf sid st ++
        subs.flatMap (fun sub =>
          if sub.id == sid then [TStatus.running, termStatus env sub] else []) := by
  intro subs
  induction subs with
  | nil => intro st; simp [execute_sequential]
  | cons sub rest ih =>
    intro st
    rw [execute_sequential, ih, eventsOf_recordOutcome, eventsOf_update, List.flatMap_cons]
    by_cases h : sub.id == sid
    · simp [h]
    · simp [h]

theorem eventsOf_running_phase (sid : String) :
    ∀ (subs : List NSub) (st : ExecSt),
      eventsOf sid (subs.foldl
          (fun s sub => update_subtask_status s sub.id .running none none) st)
        = eventsOf sid st ++
          subs.flatMap (fun sub => if sub.id == sid then [TStatus.running] else []) := by
  intro subs
  induction subs with
  | nil => intro st; simp
  | cons sub rest ih =>
    intro st
    rw [List.foldl_cons, ih, eventsOf_update, List.flatMap_cons]
    by_cases h : sub.id == sid
    · simp [h]
    · simp [h]

theorem eventsOf_term_phase (env : String → ProcResult) (sid : String) :
    ∀ (subs : List NSub) (st : ExecSt),
      eventsOf sid (subs.foldl (fun s sub => recordOutcome env s sub.id sub) st)
        = eventsOf sid st ++
          subs.flatMap (fun sub => if sub.id == sid then [termStatus env sub] else []) := by
  intro subs
  induction subs with
  | nil => intro st; simp
  | cons sub rest ih =>
    intro st
    rw [List.foldl_cons, ih, eventsOf_recordOutcome, List.flatMap_cons]
    by_cases h : sub.id == sid
    · simp [h]
    · simp [h]

theorem eventsOf_execute_parallel (env : String → ProcResult) (sid : String)
    (subs : List NSub) (st : ExecSt) :
    eventsOf sid (execute_parallel env subs st)
      = eventsOf sid st ++
        subs.flatMap (fun sub => if sub.id == sid then [TStatus.running] else []) ++
        subs.flatMap (fun sub => if sub.id == sid then [termStatus env sub] else []) := by
  rw [execute_parallel, eventsOf_term_phase, eventsOf_running_phase]

theorem eventsOf_pair_running_phase (sid : String) :
    ∀ (ps : List (String × NSub)) (st : ExecSt),
      eventsOf sid (ps.foldl (fun s p => update_subtask_status s p.1 .running none none) st)
        = eventsOf sid st ++
          ps.flatMap (fun p => if p.1 == sid then [TStatus.running] else []) := by
  intro ps
  induction ps with
  | nil => intro st; simp
  | cons p rest ih =>
    intro st
    rw [List.foldl_cons, ih, eventsOf_update, List.flatMap_cons]
    by_cases h : p.1 == sid
    · simp [h]
    · simp [h]

theorem eventsOf_pair_term_phase (env : String → ProcResult) (sid : String) :
    ∀ (ps : List (String × NSub)) (st : ExecSt),
      eventsOf sid (ps.foldl (fun s p => recordOutcome env s p.1 p.2) st)
        = eventsOf sid st ++
          ps.flatMap (fun p => if p.1 == sid then [termStatus env p.2] else []) := by
  intro ps
  induction ps with
  | nil => intro st; simp
  | cons p rest ih =>
    intro st
    rw [List.foldl_cons, ih, eventsOf_recordOutcome, List.flatMap_cons]
    by_cases h : p.1 == sid
    · simp [h]
    · simp [h]

theorem eventsOf_execute_group (env : String → ProcResult) (subs : List NSub)
    (group : List String) (st : ExecSt) (sid : String) :
    eventsOf sid (execute_group env subs group st).1
      = eventsOf sid st ++ groupEvents env subs sid group := by
  match group with
  | [g] =>
    cases hm : subtaskMapGet subs g with
    | none => simp [execute_group, groupEvents, hm]
    | some sub =>
      cases hr : execute_subtask env sub with
      | ok r =>
        simp only [execute_group, groupEvents, hm, hr, termStatus]
        rw [eventsOf_update, eventsOf_update]
        by_cases h : g == sid
        · simp [h]
        · simp [h]
      | error e =>
        simp only [execute_group, groupEvents, hm, hr, termStatus]
        rw [eventsOf_update, eventsOf_update]
        by_cases h : g == sid
        · simp [h]
        · simp [h]
  | [] =>
    simp [execute_group, groupEvents]
  | g1 :: g2 :: gs =>
    simp only [execute_group, groupEvents]
    rw [eventsOf_pair_term_phase, eventsOf_pair_running_phase, List.append_assoc]

theorem eventsOf_execute_with_dependencies (env : String → ProcResult) (subs : List NSub)
    (sid : String) :
    ∀ (groups : List (List String)) (st st' : ExecSt),
      execute_with_dependencies env subs groups st = (st', none) →
      eventsOf sid st' = eventsOf sid st ++ groups.flatMap (groupEvents env subs sid) := by
  intro groups
  induction groups with
  | nil =>
    intro st st' h
    rw [execute_with_dependencies] at h
    cases h
    simp
  | cons grp rest ih =>
    intro st st' h
    rw [execute_with_dependencies] at h
    rcases hg : execute_group env subs grp st with ⟨st1, exc⟩
    rw [hg] at h
    cases exc with
    | some e => exact absurd h (by simp)
    | none =>
      have h1 := ih st1 st' h
      have h2 : eventsOf sid st1 = eventsOf sid st ++ groupEvents env subs sid grp := by
        have := eventsOf_execute_group env subs grp st sid
        rw [hg] at this
        exact this
      rw [h1, h2, List.flatMap_cons, List.append_assoc]

/-! ### Shape analysis: a subtask's events along any single execution path -/

theorem flatMap_if_eq_nil {β : Type} (sid : String) (key : β → String)
    (G : β → List TStatus) :
    ∀ (l : List β), sid ∉ l.map key →
      l.flatMap (fun p => if key p == sid then G p else []) = [] := by
  intro l
  induction l with
  | nil => intro _; rfl
  | cons p rest ih =>
    intro h
    rw [List.map_cons] at h
    have h1 : key p ≠ sid := fun he => h (by rw [he]; exact List.mem_cons_self _ _)
    have h2 : sid ∉ rest.map key := fun he => h (List.mem_cons_of_mem _ he)
    rw [List.flatMap_cons, ih h2]
    simp [h1]

/-- When a key list is duplicate-free, either no element carries the key `sid`, or
exactly one does and every keyed flat-map collapses to that element's contribution. -/
theorem key_hit_cases {β : Type} (sid : String) (key : β → String) :
    ∀ (l : List β), (l.map key).Nodup →
      sid ∉ l.map key ∨
        ∃ p ∈ l, key p = sid ∧ ∀ G : β → List TStatus,
          l.flatMap (fun q => if key q == sid then G q else []) = G p := by
  intro l
  induction l with
  | nil => intro _; exact Or.inl (by simp)
  | cons p rest ih =>
    intro hnd
    rw [List.map_cons, List.nodup_cons] at hnd
    obtain ⟨hnotin, hnd'⟩ := hnd
    by_cases hp : key p = sid
    · refine Or.inr ⟨p, List.mem_cons_self _ _, hp, ?_⟩
      intro G
      rw [List.flatMap_cons, flatMap_if_eq_nil sid key G rest (by rw [← hp]; exact hnotin)]
      simp [hp]
    · rcases ih hnd' with hno | ⟨q, hq, hkq, hG⟩
      · refine Or.inl ?_
        intro hmem
        rw [List.map_cons] at hmem
        rcases List.mem_cons.mp hmem with he | hm
        · exact hp he.symm
        · exact hno hm
      · refine Or.inr ⟨q, List.mem_cons_of_mem _ hq, hkq, ?_⟩
        intro G
        rw [List.flatMap_cons, hG G]
        simp [hp]

theorem goodEvents_seq (env : String → ProcResult) (sid : String) (subs : List NSub)
    (hnd : (subs.map NSub.id).Nodup) :
    goodEvents (subs.flatMap (fun sub =>
      if sub.id == sid then [TStatus.running, termStatus env sub] else [])) := by
  rcases key_hit_cases sid NSub.id subs hnd with hno | ⟨p, _, _, hG⟩
  · exact Or.inl (flatMap_if_eq_nil sid NSub.id _ subs hno)
  · exact Or.inr ⟨termStatus env p, termStatus_cases env p, hG _⟩

theorem goodEvents_par (env : String → ProcResult) (sid : String) (subs : List NSub)
    (hnd : (subs.map NSub.id).Nodup) :
    goodEvents
      (subs.flatMap (fun sub => if sub.id == sid then [TStatus.running] else []) ++
        subs.flatMap (fun sub => if sub.id == sid then [termStatus env sub] else [])) := by
  rcases key_hit_cases sid NSub.id subs hnd with hno | ⟨p, _, _, hG⟩
  · rw [flatMap_if_eq_nil sid NSub.id _ subs hno, flatMap_if_eq_nil sid NSub.id _ subs hno]
    exact Or.inl rfl
  · rw [hG (fun _ => [TStatus.running]), hG (fun sub => [termStatus env sub])]
    exact Or.inr ⟨termStatus env p, termStatus_cases env p, rfl⟩

theorem found_map_fst (subs : List NSub) :
    ∀ (group : List String),
      ((group.filterMap (fun s => (subtaskMapGet subs s).map (fun sub => (s, sub)))).map
        Prod.fst) = group.filter (fun s => (subtaskMapGet subs s).isSome) := by
  intro group
  induction group with
  | nil => rfl
  | cons g rest ih =>
    rw [List.filterMap_cons, List.filter_cons]
    cases hm : subtaskMapGet subs g
    · simp [hm, ih]
    · simp [hm, ih]

theorem groupEvents_nil_of_not_mem (env : String → ProcResult) (subs : List NSub)
    (sid : String) :
    ∀ (group : List String), sid ∉ group → groupEvents env subs sid group = [] := by
  intro group hs
  match group with
  | [] => rfl
  | [g] =>
    have hg : g ≠ sid := by
      intro he
      rw [he] at hs
      exact hs (List.mem_singleton_self sid)
    rw [groupEvents]
    simp [hg]
  | g1 :: g2 :: gs =>
    rw [groupEvents]
    have hfst : sid ∉ ((g1 :: g2 :: gs).filterMap
        (fun s => (subtaskMapGet subs s).map (fun sub => (s, sub)))).map Prod.fst := by
      rw [found_map_fst]
      intro hmem
      exact hs (List.mem_of_mem_filter hmem)
    rw [flatMap_if_eq_nil sid Prod.fst _ _ hfst, flatMap_if_eq_nil sid Prod.fst _ _ hfst]
    rfl

theorem goodEvents_group (env : String → ProcResult) (subs : List NSub) (sid : String) :
    ∀ (group : List String), group.Nodup → goodEvents (groupEvents env subs sid group) := by
  intro group hnd
  match group with
  | [] => exact Or.inl rfl
  | [g] =>
    rw [groupEvents]
    by_cases h : (g == sid) = true
    · rw [if_pos h]
      cases hm : subtaskMapGet subs g
      · exact Or.inl rfl
      · rename_i sub
        exact Or.inr ⟨termStatus env sub, termStatus_cases env sub, rfl⟩
    · rw [if_neg h]
      exact Or.inl rfl
  | g1 :: g2 :: gs =>
    rw [groupEvents]
    have hfnd : (((g1 :: g2 :: gs).filterMap
        (fun s => (subtaskMapGet subs s).map (fun sub => (s, sub)))).map Prod.fst).Nodup := by
      rw [found_map_fst]
      exact hnd.filter _
    rcases key_hit_cases sid Prod.fst _ hfnd with hno | ⟨p, _, _, hG⟩
    · rw [flatMap_if_eq_nil sid Prod.fst _ _ hno, flatMap_if_eq_nil sid Prod.fst _ _ hno]
      exact Or.inl rfl
    · rw [hG (fun _ => [TStatus.running]), hG (fun q => [termStatus env q.2])]
      exact Or.inr ⟨termStatus env p.2, termStatus_cases env p.2, rfl⟩

theorem flatMap_groupEvents_nil (env : String → ProcResult) (subs : List NSub)
    (sid : String) :
    ∀ (groups : List (List String)), (∀ grp ∈ groups, sid ∉ grp) →
      groups.flatMap (groupEvents env subs sid) = [] := by
  intro groups
  induction groups with
  | nil => intro _; rfl
  | cons grp rest ih =>
    intro h
    rw [List.flatMap_cons,
      groupEvents_nil_of_not_mem env subs sid grp (h grp (List.mem_cons_self _ _)),
      List.nil_append]
    exact ih (fun grp' hg' => h grp' (List.mem_cons_of_mem _ hg'))

theorem goodEvents_plan (env : String → ProcResult) (subs : List NSub) (sid : String) :
    ∀ (plan : List (List String)), plan.flatten.Nodup →
      goodEvents (plan.flatMap (groupEvents env subs sid)) := by
  intro plan
  induction plan with
  | nil => intro _; exact Or.inl rfl
  | cons grp rest ih =>
    intro hnd
    rw [List.flatten_cons, List.nodup_append] at hnd
    obtain ⟨h1, h2, hdisj⟩ := hnd
    rw [List.flatMap_cons]
    by_cases hs : sid ∈ grp
    · have hrest : rest.flatMap (groupEvents env subs sid) = [] := by
        apply flatMap_groupEvents_nil
        intro grp' hg' hsg'
        exact hdisj hs (List.mem_flatten.mpr ⟨grp', hg', hsg'⟩)
      rw [hrest, List.append_nil]
      exact goodEvents_group env subs sid grp h1
    · rw [groupEvents_nil_of_not_mem env subs sid grp hs, List.nil_append]
      exact ih h2

theorem forwardOnly_of_goodEvents {E : List TStatus} (h : goodEvents E) :
    forwardOnly (TStatus.pending :: E) = true := by
  rcases h with rfl | ⟨t, ht, rfl⟩
  · rfl
  · rcases ht with rfl | rfl <;> rfl

theorem plan_flatten_nodup {tasks : List PTask} {plan : List (List String)}
    (h : create_execution_plan tasks = .ok plan) : plan.flatten.Nodup := by
  by_cases hv : validate_dependencies (buildGraph tasks) = []
  · have hpeel := peel_nodes_eq_nil_of_validate (buildGraph_wf tasks) hv
    obtain ⟨stages, hok, hperm, -⟩ := planLoop_spec _ _ _ hpeel (buildGraph_wf tasks).nodup
    rw [create_execution_plan_eq_planLoop hv, hok] at h
    obtain rfl := Except.ok.inj h
    exact hperm.nodup_iff.mpr (buildGraph_wf tasks).nodup
  · exfalso
    simp only [create_execution_plan] at h
    rw [if_pos hv] at h
    exact Except.noConfusion h

/-! ### Claims C6-C10 (executor and runner) -/

/-- C6 counterexample: the claim "a subtask that has reached a terminal state is
never set back to RUNNING or PENDING within the same `execute_task` call" is false
as stated.  When subtask `a` (a singleton stage) fails, the re-raise is caught at
line 150 and the whole subtask list is re-executed in fallback mode, so `a`'s entry
goes PENDING, RUNNING, FAILED, RUNNING, FAILED. -/
theorem claim_C6_counterexample :
    statusSeq (execute_task envFail tdFailFast) ("a") =
      [TStatus.pending, TStatus.running, TStatus.failed, TStatus.running, TStatus.failed] ∧
    forwardOnly (statusSeq (execute_task envFail tdFailFast) ("a")) = false :=
  ⟨by rfl, by rfl⟩

/-- C6 amended: per-subtask statuses are forward-only provided the subtask ids are
pairwise distinct and the dependency-driven path did not fail over to fallback
after partially executing (either planning failed, so only the fallback ran from a
clean PENDING state, or dependency-driven execution completed without a
re-raised singleton failure). -/
theorem claim_C6_forward_only_amended (env : String → ProcResult) (td : TaskIn)
    (hnd : ((normSubsOf td).map NSub.id).Nodup)
    (hnf : depFellBack env td = false) :
    ∀ sid, forwardOnly (statusSeq (execute_task env td) sid) = true := by
  intro sid
  have hev : eventsOf sid (execute_task env td) = eventsOf sid (depPhase env td) := rfl
  rw [statusSeq, hev]
  apply forwardOnly_of_goodEvents
  cases hp : planOf td with
  | error e =>
    have hd : depPhase env td = fallbackExec env td (initStOf td) := by
      simp only [depPhase, hp]
    rw [hd, fallbackExec]
    by_cases hm : td.executionMode = ("parallel")
    · rw [if_pos hm, eventsOf_execute_parallel,
        show eventsOf sid (initStOf td) = [] from rfl, List.nil_append]
      exact goodEvents_par env sid (normSubsOf td) hnd
    · rw [if_neg hm, eventsOf_execute_sequential,
        show eventsOf sid (initStOf td) = [] from rfl, List.nil_append]
      exact goodEvents_seq env sid (normSubsOf td) hnd
  | ok plan =>
    simp only [depFellBack, hp] at hnf
    rcases hewd : execute_with_dependencies env (normSubsOf td) plan (initStOf td)
      with ⟨s, exc⟩
    rw [hewd] at hnf
    cases exc with
    | some e => exact absurd hnf (by simp)
    | none =>
      have hd : depPhase env td = s := by
        simp only [depPhase, hp, hewd]
      rw [hd]
      have hev2 := eventsOf_execute_with_dependencies env (normSubsOf td) sid plan
        (initStOf td) s hewd
      rw [show eventsOf sid (initStOf td) = [] from rfl, List.nil_append] at hev2
      rw [hev2]
      have hp' : create_execution_plan ((normSubsOf td).map nsubToPTask) = .ok plan := hp
      exact goodEvents_plan env (normSubsOf td) sid plan (plan_flatten_nodup hp')

/-- C6 witness: with a successful oracle the same task has distinct ids, does not
fall back, and every status history is forward-only. -/
theorem claim_C6_witness :
    ((normSubsOf tdFailFast).map NSub.id).Nodup ∧
    depFellBack envOk tdFailFast = false ∧
    forwardOnly (statusSeq (execute_task envOk tdFailFast) ("a")) = true :=
  ⟨by decide, by rfl,
    claim_C6_forward_only_amended envOk tdFailFast (by decide) (by rfl) ("a")⟩

/-- C7 counterexample: the claim "no subtask belonging to a later stage is started
after that failure" is false as stated.  On the plan `[[a], [b]]` with `a` failing,
the re-raise is caught at line 150 and the fallback re-runs everything, so the
later-stage subtask `b` is set RUNNING (and completes) after `a`'s failure. -/
theorem claim_C7_counterexample :
    planOf tdFailFast = .ok [[("a")], [("b")]] ∧
    (execute_task envFail tdFailFast).trace =
      [(("a"), TStatus.running), (("a"), TStatus.failed),
       (("a"), TStatus.running), (("a"), TStatus.failed),
       (("b"), TStatus.running), (("b"), TStatus.completed)] ∧
    ((execute_task envFail tdFailFast).trace.drop 2).contains
      (("b"), TStatus.running) = true :=
  ⟨by rfl, by rfl, by rfl⟩

/-- C7 amended: a singleton-stage failure is propagated and aborts the remaining
stages *of the dependency-driven path* — the exceptional result state is exactly
the state after the failing group, with the suffix groups unprocessed — but
`execute_task` then catches the failure and falls back, re-executing all subtasks
in the task-level mode. -/
theorem claim_C7_failfast_amended :
    (∀ (env : String → ProcResult) (subs : List NSub) (groups : List (List String))
        (st st' : ExecSt) (e : String),
        execute_with_dependencies env subs groups st = (st', some e) →
        ∃ pre grp suf st₁, groups = pre ++ grp :: suf ∧
          execute_with_dependencies env subs pre st = (st₁, none) ∧
          execute_group env subs grp st₁ = (st', some e)) ∧
    (∀ (env : String → ProcResult) (td : TaskIn) (plan : List (List String))
        (s : ExecSt) (e : String),
        planOf td = .ok plan →
        execute_with_dependencies env (normSubsOf td) plan (initStOf td) = (s, some e) →
        depPhase env td = fallbackExec env td s) := by
  constructor
  · intro env subs groups
    induction groups with
    | nil =>
      intro st st' e h
      rw [execute_with_dependencies] at h
      exact absurd h (by simp)
    | cons grp rest ih =>
      intro st st' e h
      rw [execute_with_dependencies] at h
      rcases hg : execute_group env subs grp st with ⟨st1, exc⟩
      rw [hg] at h
      cases exc with
      | some e' =>
        refine ⟨[], grp, rest, st, rfl, rfl, ?_⟩
        rw [hg]
        exact h
      | none =>
        obtain ⟨pre, grp', suf, st₁, heq, hpre, hgrp'⟩ := ih st1 st' e h
        refine ⟨grp :: pre, grp', suf, st₁, by rw [heq, List.cons_append], ?_, hgrp'⟩
        rw [execute_with_dependencies, hg]
        exact hpre
  · intro env td plan s e hp hewd
    simp only [depPhase, hp, hewd]

/-- C7 witness: the amended fail-fast structure instantiated on the concrete
failing plan `[[a], [b]]`. -/
theorem claim_C7_witness :
    ∃ pre grp suf st₁, ([[("a")], [("b")]] : List (List String)) = pre ++ grp :: suf ∧
      execute_with_dependencies envFail (normSubsOf tdFailFast) pre (initStOf tdFailFast)
        = (st₁, none) ∧
      execute_group envFail (normSubsOf tdFailFast) grp st₁ =
        ((execute_with_dependencies envFail (normSubsOf tdFailFast) [[("a")], [("b")]]
            (initStOf tdFailFast)).1,
          some (("Command failed with exit code 1: err"))) :=
  claim_C7_failfast_amended.1 envFail (normSubsOf tdFailFast) [[("a")], [("b")]]
    (initStOf tdFailFast)
    ((execute_with_dependencies envFail (normSubsOf tdFailFast) [[("a")], [("b")]]
      (initStOf tdFailFast)).1)
    (("Command failed with exit code 1: err")) (by rfl)

/-- C8: in the typed model no exception can escape subtask processing, so the
overall task status is always COMPLETED (never FAILED) — even when individual
subtasks ended FAILED, as on the concrete failing input. -/
theorem claim_C8_overall_status :
    (∀ (env : String → ProcResult) (td : TaskIn),
      (execute_task env td).record.status = TStatus.completed ∧
      (execute_task env td).record.status ≠ TStatus.failed) ∧
    (∃ en ∈ (execute_task envFail tdFailFast).record.subtasks,
      en.status = TStatus.failed) ∧
    (execute_task envFail tdFailFast).record.status = TStatus.completed := by
  refine ⟨?_, by decide, by rfl⟩
  intro env td
  have h1 : (execute_task env td).record.status = TStatus.completed := rfl
  refine ⟨h1, ?_⟩
  intro h
  rw [h1] at h
  exact TStatus.noConfusion h

/-- C9: the subtask runner fails exactly when the command is absent/empty (failing
immediately with the input-contract message) or the process exits non-zero (failing
with the captured stderr attached); otherwise it returns the captured stdout with
exit code 0. -/
theorem claim_C9_runner_contract (env : String → ProcResult) (st : NSub) :
    ((st.command = none ∨ st.command = some ("")) →
      execute_subtask env st = .error ("Subtask command is required")) ∧
    (∀ c, st.command = some c → c ≠ ("") → (env c).exitCode ≠ 0 →
      execute_subtask env st = .error (("Command failed with exit code ")
        ++ toString (env c).exitCode ++ (": ") ++ (env c).stderr)) ∧
    (∀ c, st.command = some c → c ≠ ("") → (env c).exitCode = 0 →
      execute_subtask env st = .ok ((env c).stdout, 0)) ∧
    ((∃ e, execute_subtask env st = .error e) ↔
      (st.command = none ∨ st.command = some ("") ∨
        ∃ c, st.command = some c ∧ c ≠ ("") ∧ (env c).exitCode ≠ 0)) := by
  refine ⟨?_, ?_, ?_, ?_⟩
  · rintro (h | h)
    · simp only [execute_subtask, h]
    · simp [execute_subtask, h]
  · intro c hc hne hexit
    simp only [execute_subtask, hc]
    rw [if_neg hne, if_pos hexit]
  · intro c hc hne hexit
    simp only [execute_subtask, hc]
    rw [if_neg hne, if_neg (fun h => h hexit), hexit]
  · constructor
    · rintro ⟨e, he⟩
      cases hc : st.command with
      | none => exact Or.inl rfl
      | some c =>
        by_cases hce : c = ("")
        · exact Or.inr (Or.inl (by rw [hce]))
        · by_cases hex : (env c).exitCode = 0
          · exfalso
            simp only [execute_subtask, hc] at he
            rw [if_neg hce, if_neg (fun h => h hex)] at he
            exact Except.noConfusion he
          · exact Or.inr (Or.inr ⟨c, rfl, hce, hex⟩)
    · rintro (h | h | ⟨c, hc, hce, hex⟩)
      · refine ⟨("Subtask command is required"), ?_⟩
        simp only [execute_subtask, h]
      · refine ⟨("Subtask command is required"), ?_⟩
        simp [execute_subtask, h]
      · refine ⟨("Command failed with exit code ") ++ toString (env c).exitCode ++ (": ")
          ++ (env c).stderr, ?_⟩
        simp only [execute_subtask, hc]
        rw [if_neg hce, if_pos hex]

/-- C9 witness: scenario C of the spec — `echo hello` returns stdout and exit
code 0. -/
theorem claim_C9_witness :
    (⟨("s"), some ("echo hello"), [], ("sequential")⟩ : NSub).command
      = some ("echo hello") ∧
    ("echo hello") ≠ ("") ∧ (envHello ("echo hello")).exitCode = 0 ∧
    execute_subtask envHello ⟨("s"), some ("echo hello"), [], ("sequential")⟩
      = .ok ((envHello ("echo hello")).stdout, 0) :=
  ⟨rfl, by decide, rfl,
    (claim_C9_runner_contract envHello
        ⟨("s"), some ("echo hello"), [], ("sequential")⟩).2.2.1
      ("echo hello") rfl (by decide) rfl⟩

/-- C10: `execute_task` always returns a record whose status is terminal (in fact
COMPLETED, never RUNNING) with a non-null end time, and the last persisted
snapshot is exactly that final record; the empty subtask list also completes. -/
theorem claim_C10_always_terminal_persisted (env : String → ProcResult) (td : TaskIn) :
    ((execute_task env td).record.status = TStatus.completed ∨
      (execute_task env td).record.status = TStatus.failed) ∧
    (execute_task env td).record.status ≠ TStatus.running ∧
    (execute_task env td).record.endTime ≠ none ∧
    (execute_task env td).saves.getLast? = some (execute_task env td).record ∧
    (execute_task envOk ⟨("t0"), [], ("sequential")⟩).record.status
      = TStatus.completed := by
  have h1 : (execute_task env td).record.status = TStatus.completed := rfl
  refine ⟨Or.inl h1, ?_, ?_, ?_, by rfl⟩
  · intro h
    rw [h1] at h
    exact TStatus.noConfusion h
  · intro h
    have h2 : (execute_task env td).record.endTime = some () := rfl
    rw [h2] at h
    exact Option.noConfusion h
  · have h3 : (execute_task env td).saves
        = (depPhase env td).saves ++ [(execute_task env td).record] := rfl
    rw [h3]
    simp

end Spec2Proof
